import Mathlib

/-!
Verification of the Upgrade Assistant delegate
(repository `freenet-delegates`, crate `upgrade-assistant`, file `src/lib.rs`).

The delegate is a stateless, message-driven continuation engine: each
invocation of `process` receives an inbound message plus an attested origin,
and returns either an error or a list of outbound effects.  Multi-step
operations park a `PendingOperation` in a serialized context blob that is
round-tripped through every call.

Shallow embedding conventions:
  * Rust `Vec<u8>` / `[u8; 32]` values become `List Nat` (`Bytes`); where a
    property genuinely depends on values being bytes, theorems carry the
    hypothesis that every element is `< 256`.
  * `SecretsId` keys are produced in the source as the UTF-8 bytes of a
    format string and recovered with `String::from_utf8_lossy`; since UTF-8
    encoding is a bijection between Rust strings and their byte encodings,
    the embedding carries the key as a Lean `String` directly.
  * The ciborium (CBOR) serialization used for the context, the request and
    response payloads and the stored record is external library code.  It is
    modelled by a concrete executable, injective, self-delimiting codec over
    symbol streams (`List Nat`): every constructor is tagged and every
    variable-length field is length-prefixed, which are exactly the
    properties of the CBOR encoding the source relies on.  The repository's
    own code (the empty-bytes bootstrap case of `TryFrom<DelegateContext>`,
    and every call site) is translated directly.
  * Rust `HashMap<String, PendingOperation>` becomes an association list with
    HashMap operation semantics (`mapLookup`, `mapInsert` replacing the value
    of an existing key, `mapErase`); deserialization folds entries with
    `mapInsert`, as serde does, so decoded maps have pairwise-distinct keys.
-/

/-- Byte strings (`Vec<u8>`, `[u8; 32]`) are lists of naturals. -/
abbrev Bytes := List Nat

/-! ### Base58 encoding (the `bs58` crate)

`bs58::encode(bytes)` maps each leading zero byte to the character `1` and
then writes the big-endian base-58 digits of the remaining value using the
Bitcoin alphabet. -/

/-- The Bitcoin base58 alphabet used by the `bs58` crate. -/
def b58Alpha : List Char :=
  "123456789ABCDEFGHJKLMNPQRSTUVWXYZabcdefghijkmnopqrstuvwxyz".data

/-- Character for one base-58 digit. -/
def alphChar (d : Nat) : Char := b58Alpha.getD d '?'

/-- Big-endian value of a byte string. -/
def bytesToNat (bs : Bytes) : Nat := bs.foldl (fun acc b => acc * 256 + b) 0

/-- Number of leading zero bytes. -/
def countLeadingZeros : Bytes → Nat
  | [] => 0
  | b :: t => if b = 0 then countLeadingZeros t + 1 else 0

/-- Fuelled big-endian base-58 digit expansion (fuel `n` suffices for `n`). -/
def b58DigitsAux : Nat → Nat → List Nat
  | 0, _ => []
  | fuel + 1, n => if n = 0 then [] else b58DigitsAux fuel (n / 58) ++ [n % 58]

/-- Big-endian base-58 digits of a natural number (empty for 0). -/
def b58Digits (n : Nat) : List Nat := b58DigitsAux n n

/-- Model of `bs58::encode(..).into_string()`. -/
def b58encode (bs : Bytes) : String :=
  ⟨List.replicate (countLeadingZeros bs) '1' ++ (b58Digits (bytesToNat bs)).map alphChar⟩

/-! ### Codec primitives

Model of the ciborium serialization layer: a self-delimiting, injective
encoding into symbol streams.  Every decoder returns the decoded value and
the unconsumed remainder of the stream. -/

/-- Length-prefixed encoding of a byte string. -/
def encBytes (bs : Bytes) : List Nat := bs.length :: bs

/-- Decoder matching `encBytes`. -/
def decBytes : List Nat → Option (Bytes × List Nat)
  | [] => none
  | n :: rest => if n ≤ rest.length then some (rest.take n, rest.drop n) else none

/-- Length-prefixed encoding of a string (one symbol per character). -/
def encString (s : String) : List Nat := s.data.length :: s.data.map Char.toNat

/-- Decoder matching `encString`. -/
def decString : List Nat → Option (String × List Nat)
  | [] => none
  | n :: rest =>
    if n ≤ rest.length then some (⟨(rest.take n).map Char.ofNat⟩, rest.drop n) else none

/-- Tagged encoding of an optional string. -/
def encOptString : Option String → List Nat
  | none => [0]
  | some s => 1 :: encString s

/-- Decoder matching `encOptString`. -/
def decOptString : List Nat → Option (Option String × List Nat)
  | 0 :: rest => some (none, rest)
  | 1 :: rest =>
    match decString rest with
    | none => none
    | some (s, rest1) => some (some s, rest1)
  | _ => none

/-! ### Data model (`src/lib.rs`) -/

/-- Messages the Upgrade Assistant accepts (`UpgradeAssistantRequest`). -/
inductive UpgradeAssistantRequest where
  | GetPreviousKey (ns : Option String)
  | SetCurrentKey (ns : Option String) (delegate_key : Bytes) (code_hash : Bytes)
deriving DecidableEq, Repr

/-- Responses from the Upgrade Assistant (`UpgradeAssistantResponse`). -/
inductive UpgradeAssistantResponse where
  | PreviousKey (ns : Option String) (delegate_key : Option Bytes) (code_hash : Option Bytes)
  | KeyUpdated (ns : Option String)
deriving DecidableEq, Repr

/-- Stored data for a delegate key mapping (`StoredKeyInfo`). -/
structure StoredKeyInfo where
  delegate_key : Bytes
  code_hash : Bytes
deriving DecidableEq, Repr

/-- Pending operation context (`PendingOperation`); the origin is the attested
byte identifier, `app` the reply target. -/
inductive PendingOperation where
  | GetPreviousKey (origin : Bytes) (ns : Option String) (app : Bytes)
  | SetCurrentKey (origin : Bytes) (ns : Option String) (delegate_key : Bytes) (code_hash : Bytes)
deriving DecidableEq, Repr

/-- Context passed between delegate calls (`UpgradeAssistantContext`): the
pending-operation table, a `HashMap<String, PendingOperation>` modelled as an
association list with HashMap operation semantics. -/
structure UpgradeAssistantContext where
  pending_ops : List (String × PendingOperation) := []
deriving DecidableEq, Repr

/-- `HashMap` lookup on the association-list model. -/
def mapLookup (k : String) : List (String × PendingOperation) → Option PendingOperation
  | [] => none
  | (k2, v) :: rest => if k2 = k then some v else mapLookup k rest

/-- `HashMap::insert`: replaces the value of an existing key, else appends. -/
def mapInsert (k : String) (v : PendingOperation) :
    List (String × PendingOperation) → List (String × PendingOperation)
  | [] => [(k, v)]
  | (k2, v2) :: rest => if k2 = k then (k2, v) :: rest else (k2, v2) :: mapInsert k v rest

/-- `HashMap::remove`: removes the entry of the key, if present. -/
def mapErase (k : String) : List (String × PendingOperation) → List (String × PendingOperation)
  | [] => []
  | (k2, v2) :: rest => if k2 = k then rest else (k2, v2) :: mapErase k rest

/-- The HashMap representation invariant: keys are pairwise distinct. -/
abbrev keysNodup (m : List (String × PendingOperation)) : Prop := (m.map Prod.fst).Nodup

/-! ### Model codec for the serialized types -/

/-- Encoding of one pending operation. -/
def encPendingOp : PendingOperation → List Nat
  | .GetPreviousKey origin ns app => 0 :: (encBytes origin ++ encOptString ns ++ encBytes app)
  | .SetCurrentKey origin ns dk ch =>
      1 :: (encBytes origin ++ encOptString ns ++ encBytes dk ++ encBytes ch)

/-- Decoder matching `encPendingOp`. -/
def decPendingOp : List Nat → Option (PendingOperation × List Nat)
  | 0 :: rest =>
    match decBytes rest with
    | none => none
    | some (origin, r1) =>
      match decOptString r1 with
      | none => none
      | some (ns, r2) =>
        match decBytes r2 with
        | none => none
        | some (app, r3) => some (.GetPreviousKey origin ns app, r3)
  | 1 :: rest =>
    match decBytes rest with
    | none => none
    | some (origin, r1) =>
      match decOptString r1 with
      | none => none
      | some (ns, r2) =>
        match decBytes r2 with
        | none => none
        | some (dk, r3) =>
          match decBytes r3 with
          | none => none
          | some (ch, r4) => some (.SetCurrentKey origin ns dk ch, r4)
  | _ => none

/-- Encoding of the entry list of the pending-operation table. -/
def encEntries (es : List (String × PendingOperation)) : List Nat :=
  es.flatMap (fun kv => encString kv.1 ++ encPendingOp kv.2)

/-- Decoder for `n` map entries. -/
def decEntries : Nat → List Nat → Option (List (String × PendingOperation) × List Nat)
  | 0, rest => some ([], rest)
  | n + 1, input =>
    match decString input with
    | none => none
    | some (k, r1) =>
      match decPendingOp r1 with
      | none => none
      | some (op, r2) =>
        match decEntries n r2 with
        | none => none
        | some (es, r3) => some ((k, op) :: es, r3)

/-- Serialization of a context (`ciborium::ser::into_writer` on
`UpgradeAssistantContext`): entry count, then the entries.  Never empty. -/
def encodeContext (c : UpgradeAssistantContext) : List Nat :=
  c.pending_ops.length :: encEntries c.pending_ops

/-- Deserialization of a context; like serde, map entries are folded into the
`HashMap` with `mapInsert`. -/
def decodeContext : List Nat → Option UpgradeAssistantContext
  | [] => none
  | n :: rest =>
    match decEntries n rest with
    | none => none
    | some (es, _) =>
      some { pending_ops := es.foldl (fun m kv => mapInsert kv.1 kv.2 m) [] }

/-- Encoding of a request payload. -/
def encodeRequest : UpgradeAssistantRequest → List Nat
  | .GetPreviousKey ns => 0 :: encOptString ns
  | .SetCurrentKey ns dk ch => 1 :: (encOptString ns ++ encBytes dk ++ encBytes ch)

/-- Decoder matching `encodeRequest` (like `ciborium::from_reader`, reads one
value and ignores any trailing bytes). -/
def decodeRequest (input : List Nat) : Option UpgradeAssistantRequest :=
  match input with
  | 0 :: rest =>
    match decOptString rest with
    | none => none
    | some (ns, _) => some (.GetPreviousKey ns)
  | 1 :: rest =>
    match decOptString rest with
    | none => none
    | some (ns, r1) =>
      match decBytes r1 with
      | none => none
      | some (dk, r2) =>
        match decBytes r2 with
        | none => none
        | some (ch, _) => some (.SetCurrentKey ns dk ch)
  | _ => none

/-- Encoding of a response payload. -/
def encodeResponse : UpgradeAssistantResponse → List Nat
  | .PreviousKey ns dk ch =>
      0 :: (encOptString ns
        ++ (match dk with | none => [0] | some b => 1 :: encBytes b)
        ++ (match ch with | none => [0] | some b => 1 :: encBytes b))
  | .KeyUpdated ns => 1 :: encOptString ns

/-- Serialization of the stored record (`StoredKeyInfo`). -/
def encodeStoredKeyInfo (ki : StoredKeyInfo) : List Nat :=
  encBytes ki.delegate_key ++ encBytes ki.code_hash

/-- Deserialization of the stored record. -/
def decodeStoredKeyInfo (input : List Nat) : Option StoredKeyInfo :=
  match decBytes input with
  | none => none
  | some (dk, r1) =>
    match decBytes r1 with
    | none => none
    | some (ch, _) => some { delegate_key := dk, code_hash := ch }

/-! ### Message and error types (`freenet_stdlib` interface) -/

/-- Delegate errors; the source only constructs the `Other` and `Deser`
variants. -/
inductive DelegateError where
  | Other (msg : String)
  | Deser (msg : String)
deriving DecidableEq, Repr

/-- An application message: reply target (`ContractInstanceId` bytes),
payload, attached context bytes, and the processed flag. -/
structure ApplicationMessage where
  app : Bytes
  payload : List Nat
  context : List Nat
  processed : Bool
deriving DecidableEq, Repr

/-- An outbound storage-layer lookup request (`GetSecretRequest`); the key is
carried as the string whose UTF-8 bytes form the `SecretsId`. -/
structure GetSecretRequest where
  key : String
  context : List Nat
  processed : Bool
deriving DecidableEq, Repr

/-- An outbound storage-layer write request (`SetSecretRequest`). -/
structure SetSecretRequest where
  key : String
  value : Option (List Nat)
deriving DecidableEq, Repr

/-- An inbound storage-layer lookup response (`GetSecretResponse`). -/
structure GetSecretResponse where
  key : String
  value : Option (List Nat)
  context : List Nat
deriving DecidableEq, Repr

/-- Inbound message shapes (`InboundDelegateMsg`). -/
inductive InboundDelegateMsg where
  | ApplicationMessage (m : ApplicationMessage)
  | GetSecretResponse (r : GetSecretResponse)
  | UserResponse
  | GetSecretRequest
deriving DecidableEq, Repr

/-- Outbound effects (`OutboundDelegateMsg`). -/
inductive OutboundDelegateMsg where
  | ApplicationMessage (m : ApplicationMessage)
  | GetSecretRequest (r : GetSecretRequest)
  | SetSecretRequest (r : SetSecretRequest)
deriving DecidableEq, Repr

/-- `TryFrom<DelegateContext> for UpgradeAssistantContext`: empty bytes give
the default (empty) context, anything else is deserialized, failing with a
`Deser` error on malformed bytes. -/
def ctxTryFrom (bytes : List Nat) : Except DelegateError UpgradeAssistantContext :=
  if bytes = [] then .ok {}
  else
    match decodeContext bytes with
    | some c => .ok c
    | none => .error (.Deser "Failed to deserialize context")

/-! ### The delegate (`src/lib.rs`) -/

/-- Model of `create_storage_key`: the `SecretsId` string
`"upgrade_assistant:{origin_b58}:{ns}"`, with `"_default_"` substituted for an
absent namespace. -/
def create_storage_key (origin : Bytes) (ns : Option String) : String :=
  "upgrade_assistant:" ++ b58encode origin ++ ":" ++ ns.getD "_default_"

/-- Model of `create_app_response`: serializes the response and wraps it in an
outbound application message carrying the given context. -/
def create_app_response (response : UpgradeAssistantResponse) (context : List Nat)
    (app : Bytes) : OutboundDelegateMsg :=
  .ApplicationMessage
    { app := app, payload := encodeResponse response, context := context, processed := false }

/-- Model of `handle_get_previous_key`: derive the storage key, park a
`GetPreviousKey` pending operation under it, and emit exactly one storage
lookup carrying the updated context. -/
def handle_get_previous_key (context : UpgradeAssistantContext) (origin : Bytes)
    (ns : Option String) (app : Bytes) : Except DelegateError (List OutboundDelegateMsg) :=
  let secret_key := create_storage_key origin ns
  let context2 : UpgradeAssistantContext :=
    { pending_ops := mapInsert secret_key (.GetPreviousKey origin ns app) context.pending_ops }
  let context_bytes := encodeContext context2
  .ok [.GetSecretRequest { key := secret_key, context := context_bytes, processed := false }]

/-- Model of `handle_set_current_key`: derive the storage key, serialize the
`StoredKeyInfo`, and emit the `KeyUpdated` reply (carrying the re-serialized
inbound context) followed by the storage write. -/
def handle_set_current_key (context : UpgradeAssistantContext) (origin : Bytes)
    (ns : Option String) (delegate_key : Bytes) (code_hash : Bytes) (app : Bytes) :
    Except DelegateError (List OutboundDelegateMsg) :=
  let secret_key := create_storage_key origin ns
  let value := encodeStoredKeyInfo { delegate_key := delegate_key, code_hash := code_hash }
  let response := UpgradeAssistantResponse.KeyUpdated ns
  let context_bytes := encodeContext context
  let app_response := create_app_response response context_bytes app
  .ok [app_response, .SetSecretRequest { key := secret_key, value := some value }]

/-- Model of `handle_get_secret_response`: decode the context, remove the
pending operation for the response's key (failing when there is none), and
for a `GetPreviousKey` operation reply with the decoded stored record (or
`None`s when the value is absent); a parked `SetCurrentKey` is an invariant
violation. -/
def handle_get_secret_response (response : GetSecretResponse) :
    Except DelegateError (List OutboundDelegateMsg) :=
  match ctxTryFrom response.context with
  | .error e => .error e
  | .ok context =>
    let key_str := response.key
    match mapLookup key_str context.pending_ops with
    | none => .error (.Other ("No pending operation for key: " ++ key_str))
    | some pending_op =>
      let context2 : UpgradeAssistantContext :=
        { pending_ops := mapErase key_str context.pending_ops }
      match pending_op with
      | .GetPreviousKey _ ns app =>
        match response.value with
        | some value =>
          match decodeStoredKeyInfo value with
          | none => .error (.Deser "Failed to deserialize key info")
          | some key_info =>
            .ok [create_app_response
              (.PreviousKey ns (some key_info.delegate_key) (some key_info.code_hash))
              (encodeContext context2) app]
        | none =>
          .ok [create_app_response (.PreviousKey ns none none) (encodeContext context2) app]
      | .SetCurrentKey _ _ _ _ =>
        .error (.Other "Unexpected SetCurrentKey pending operation for get secret response")

/-- Model of `handle_application_message`: decode the context and the request
payload, then dispatch on the request variant. -/
def handle_application_message (app_msg : ApplicationMessage) (origin : Bytes) :
    Except DelegateError (List OutboundDelegateMsg) :=
  match ctxTryFrom app_msg.context with
  | .error e => .error e
  | .ok context =>
    match decodeRequest app_msg.payload with
    | none => .error (.Deser "Failed to deserialize request")
    | some request =>
      match request with
      | .GetPreviousKey ns => handle_get_previous_key context origin ns app_msg.app
      | .SetCurrentKey ns dk ch =>
        handle_set_current_key context origin ns dk ch app_msg.app

/-- Model of `UpgradeAssistant::process`: reject a missing attested origin,
reject an already processed application message, dispatch application
messages and storage responses, and reject the other message shapes. -/
def UpgradeAssistant.process (attested : Option Bytes) (message : InboundDelegateMsg) :
    Except DelegateError (List OutboundDelegateMsg) :=
  match attested with
  | none => .error (.Other "missing attested origin")
  | some origin =>
    match message with
    | .ApplicationMessage app_msg =>
      if app_msg.processed then
        .error (.Other "cannot process an already processed message")
      else handle_application_message app_msg origin
    | .GetSecretResponse response => handle_get_secret_response response
    | .UserResponse => .error (.Other "unexpected message type: UserResponse")
    | .GetSecretRequest => .error (.Other "unexpected message type: GetSecretRequest")

/-! ### Helper lemmas: strings -/

/-- Strings with equal character data are equal. -/
theorem string_data_ext {s t : String} (h : s.data = t.data) : s = t := by
  cases s; cases t; exact congrArg String.mk h

/-! ### Helper lemmas: codec round trips -/

/-- Round trip for byte-string encoding. -/
theorem decBytes_encBytes (bs : Bytes) (r : List Nat) :
    decBytes (encBytes bs ++ r) = some (bs, r) := by
  simp [encBytes, decBytes, List.take_left, List.drop_left, Nat.le_add_right]

/-- Round trip for string encoding. -/
theorem decString_encString (s : String) (r : List Nat) :
    decString (encString s ++ r) = some (s, r) := by
  have h1 : (s.data.map Char.toNat ++ r).take s.data.length = s.data.map Char.toNat := by
    rw [← List.length_map s.data Char.toNat]; exact List.take_left _ _
  have h2 : (s.data.map Char.toNat ++ r).drop s.data.length = r := by
    rw [← List.length_map s.data Char.toNat]; exact List.drop_left _ _
  have h3 : s.data.length ≤ (s.data.map Char.toNat ++ r).length := by
    simp [List.length_append, List.length_map, Nat.le_add_right]
  simp only [encString, decString, List.cons_append, h1, h2, h3, if_pos]
  refine congrArg some (Prod.ext ?_ rfl)
  exact string_data_ext (by simp [List.map_map, Function.comp_def, Char.ofNat_toNat])

/-- Round trip for optional-string encoding. -/
theorem decOptString_encOptString (o : Option String) (r : List Nat) :
    decOptString (encOptString o ++ r) = some (o, r) := by
  cases o with
  | none => simp [encOptString, decOptString]
  | some s => simp [encOptString, decOptString, decString_encString]

/-- Round trip for pending-operation encoding. -/
theorem decPendingOp_encPendingOp (op : PendingOperation) (r : List Nat) :
    decPendingOp (encPendingOp op ++ r) = some (op, r) := by
  cases op with
  | GetPreviousKey origin ns app =>
    simp [encPendingOp, decPendingOp, List.append_assoc,
      decBytes_encBytes, decOptString_encOptString]
  | SetCurrentKey origin ns dk ch =>
    simp [encPendingOp, decPendingOp, List.append_assoc,
      decBytes_encBytes, decOptString_encOptString]

/-- Round trip for entry-list encoding. -/
theorem decEntries_encEntries (es : List (String × PendingOperation)) (r : List Nat) :
    decEntries es.length (encEntries es ++ r) = some (es, r) := by
  induction es generalizing r with
  | nil => simp [encEntries, decEntries]
  | cons kv rest ih =>
    have ih2 := ih r
    simp only [encEntries] at ih2
    simp [encEntries, decEntries, List.append_assoc, decString_encString,
      decPendingOp_encPendingOp, List.flatMap_cons, ih2]

/-- Round trip for the stored record. -/
theorem decodeStoredKeyInfo_encodeStoredKeyInfo (ki : StoredKeyInfo) :
    decodeStoredKeyInfo (encodeStoredKeyInfo ki) = some ki := by
  have h1 := decBytes_encBytes ki.delegate_key (encBytes ki.code_hash)
  have h2 := decBytes_encBytes ki.code_hash []
  rw [List.append_nil] at h2
  simp [encodeStoredKeyInfo, decodeStoredKeyInfo, h1, h2]

/-- Round trip for request payloads. -/
theorem decodeRequest_encodeRequest (q : UpgradeAssistantRequest) :
    decodeRequest (encodeRequest q) = some q := by
  cases q with
  | GetPreviousKey ns =>
    have h := decOptString_encOptString ns []
    rw [List.append_nil] at h
    simp [encodeRequest, decodeRequest, h]
  | SetCurrentKey ns dk ch =>
    have h2 := decBytes_encBytes dk (encBytes ch)
    have h3 := decBytes_encBytes ch []
    rw [List.append_nil] at h3
    simp [encodeRequest, decodeRequest, List.append_assoc,
      decOptString_encOptString, h2, h3]

/-! ### Helper lemmas: the pending-operation table -/

/-- Inserting an absent key appends the entry. -/
theorem mapInsert_of_notMem (k : String) (v : PendingOperation)
    (m : List (String × PendingOperation)) (h : k ∉ m.map Prod.fst) :
    mapInsert k v m = m ++ [(k, v)] := by
  induction m with
  | nil => rfl
  | cons kv rest ih =>
    simp only [List.map_cons, List.mem_cons] at h
    push_neg at h
    simp [mapInsert, Ne.symm h.1, ih h.2]

/-- Key membership after an insert. -/
theorem mem_map_fst_mapInsert (a k : String) (v : PendingOperation)
    (m : List (String × PendingOperation)) :
    a ∈ (mapInsert k v m).map Prod.fst ↔ a = k ∨ a ∈ m.map Prod.fst := by
  induction m with
  | nil => simp [mapInsert, eq_comm]
  | cons kv rest ih =>
    by_cases hk : kv.1 = k
    · cases kv
      simp_all [mapInsert]
    · cases kv
      simp_all [mapInsert]
      tauto

/-- Insert preserves the distinct-keys invariant. -/
theorem keysNodup_mapInsert (k : String) (v : PendingOperation)
    (m : List (String × PendingOperation)) (h : keysNodup m) :
    keysNodup (mapInsert k v m) := by
  induction m with
  | nil => simp [keysNodup, mapInsert]
  | cons kv rest ih =>
    simp only [keysNodup, List.map_cons, List.nodup_cons] at h
    by_cases hk : kv.1 = k
    · cases kv
      simp_all [keysNodup, mapInsert]
    · cases kv
      simp only [mapInsert, if_neg hk]
      simp only [keysNodup, List.map_cons, List.nodup_cons]
      refine ⟨?_, ih h.2⟩
      rw [mem_map_fst_mapInsert]
      rintro (h1 | h2)
      · exact hk h1
      · exact h.1 h2

/-- Folding `mapInsert` over entries with globally distinct keys appends them. -/
theorem foldl_mapInsert_of_nodup (es : List (String × PendingOperation)) :
    ∀ acc : List (String × PendingOperation),
      (acc.map Prod.fst ++ es.map Prod.fst).Nodup →
      es.foldl (fun m kv => mapInsert kv.1 kv.2 m) acc = acc ++ es := by
  induction es with
  | nil => intro acc _; simp
  | cons kv rest ih =>
    intro acc h
    rw [List.map_cons] at h
    rcases List.nodup_append.mp h with ⟨hA, hkR, hdisj⟩
    have hnotacc : kv.1 ∉ acc.map Prod.fst :=
      fun hmem => hdisj hmem (List.mem_cons_self _ _)
    have hstep : mapInsert kv.1 kv.2 acc = acc ++ [(kv.1, kv.2)] :=
      mapInsert_of_notMem _ _ _ hnotacc
    have hnodup2 : ((acc ++ [(kv.1, kv.2)]).map Prod.fst ++ rest.map Prod.fst).Nodup := by
      simpa [List.map_append, List.append_assoc] using h
    simp only [List.foldl_cons, hstep, ih _ hnodup2, List.append_assoc, List.singleton_append]

/-- Keys produced by folding `mapInsert` over any entries stay distinct. -/
theorem keysNodup_foldl_mapInsert (es : List (String × PendingOperation)) :
    ∀ acc : List (String × PendingOperation), keysNodup acc →
      keysNodup (es.foldl (fun m kv => mapInsert kv.1 kv.2 m) acc) := by
  induction es with
  | nil => intro acc h; simpa using h
  | cons kv rest ih =>
    intro acc h
    simp only [List.foldl_cons]
    exact ih _ (keysNodup_mapInsert _ _ _ h)

/-- Looking up the key just inserted returns the inserted value. -/
theorem mapLookup_mapInsert_self (k : String) (v : PendingOperation)
    (m : List (String × PendingOperation)) :
    mapLookup k (mapInsert k v m) = some v := by
  induction m with
  | nil => simp [mapInsert, mapLookup]
  | cons kv rest ih =>
    by_cases hk : kv.1 = k
    · cases kv; simp_all [mapInsert, mapLookup]
    · cases kv; simp_all [mapInsert, mapLookup]

/-- Looking up an absent key fails. -/
theorem mapLookup_eq_none_of_notMem (k : String) :
    ∀ m : List (String × PendingOperation), k ∉ m.map Prod.fst → mapLookup k m = none := by
  intro m
  induction m with
  | nil => intro _; rfl
  | cons kv rest ih =>
    intro h
    cases kv with
    | mk k2 v2 =>
      simp only [List.map_cons, List.mem_cons] at h
      push_neg at h
      have hne : ¬(k2 = k) := fun e => h.1 e.symm
      simp [mapLookup, hne, ih h.2]

/-- A key is gone after erasing it, given distinct keys. -/
theorem mapLookup_mapErase_self (k : String) :
    ∀ m : List (String × PendingOperation), keysNodup m →
      mapLookup k (mapErase k m) = none := by
  intro m
  induction m with
  | nil => intro _; rfl
  | cons kv rest ih =>
    intro h
    cases kv with
    | mk k2 v2 =>
      simp only [keysNodup, List.map_cons, List.nodup_cons] at h
      by_cases hk : k2 = k
      · subst hk
        simp only [mapErase, if_pos rfl]
        exact mapLookup_eq_none_of_notMem _ _ h.1
      · simp only [mapErase, if_neg hk, mapLookup, if_neg hk]
        exact ih h.2

/-- Keys of the erased table come from the original table. -/
theorem mem_map_fst_mapErase (k a : String) :
    ∀ m : List (String × PendingOperation),
      a ∈ (mapErase k m).map Prod.fst → a ∈ m.map Prod.fst := by
  intro m
  induction m with
  | nil => simp [mapErase]
  | cons kv rest ih =>
    cases kv with
    | mk k2 v2 =>
      by_cases hk2 : k2 = k
      · simp only [mapErase, if_pos hk2, List.map_cons, List.mem_cons]
        intro ha; exact Or.inr ha
      · simp only [mapErase, if_neg hk2, List.map_cons, List.mem_cons]
        rintro (ha | ha)
        · exact Or.inl ha
        · exact Or.inr (ih ha)

/-- Erase preserves the distinct-keys invariant. -/
theorem keysNodup_mapErase (k : String) :
    ∀ m : List (String × PendingOperation), keysNodup m → keysNodup (mapErase k m) := by
  intro m
  induction m with
  | nil => intro h; exact h
  | cons kv rest ih =>
    intro h
    cases kv with
    | mk k2 v2 =>
      simp only [keysNodup, List.map_cons, List.nodup_cons] at h
      by_cases hk2 : k2 = k
      · simp only [mapErase, if_pos hk2]; exact h.2
      · simp only [mapErase, if_neg hk2, keysNodup, List.map_cons, List.nodup_cons]
        exact ⟨fun hmem => h.1 (mem_map_fst_mapErase k k2 rest hmem), ih h.2⟩

/-! ### Helper lemmas: context codec -/

/-- Decoding any context yields a table with distinct keys (the `HashMap`
representation invariant). -/
theorem decodeContext_keysNodup (bytes : List Nat) (c : UpgradeAssistantContext)
    (h : decodeContext bytes = some c) : keysNodup c.pending_ops := by
  cases bytes with
  | nil => simp [decodeContext] at h
  | cons n rest =>
    simp only [decodeContext] at h
    cases hdec : decEntries n rest with
    | none => rw [hdec] at h; simp at h
    | some p =>
      rw [hdec] at h
      cases p with
      | mk es r =>
        simp only at h
        cases h
        exact keysNodup_foldl_mapInsert es [] (by simp [keysNodup])

/-- A `TryFrom`-decoded context has distinct keys. -/
theorem ctxTryFrom_keysNodup (bytes : List Nat) (c : UpgradeAssistantContext)
    (h : ctxTryFrom bytes = .ok c) : keysNodup c.pending_ops := by
  by_cases hb : bytes = []
  · subst hb
    simp only [ctxTryFrom, if_pos rfl] at h
    cases h
    simp [keysNodup]
  · simp only [ctxTryFrom, if_neg hb] at h
    cases hdec : decodeContext bytes with
    | none => rw [hdec] at h; simp at h
    | some c2 =>
      rw [hdec] at h
      simp only [Except.ok.injEq] at h
      exact h ▸ decodeContext_keysNodup bytes c2 hdec

/-- Serialization round trip: decoding an encoded context with distinct keys
recovers it exactly. -/
theorem decodeContext_encodeContext (c : UpgradeAssistantContext)
    (h : keysNodup c.pending_ops) : decodeContext (encodeContext c) = some c := by
  have hdec := decEntries_encEntries c.pending_ops []
  rw [List.append_nil] at hdec
  have hfold := foldl_mapInsert_of_nodup c.pending_ops [] (by simpa [keysNodup] using h)
  simp only [encodeContext, decodeContext, hdec, hfold, List.nil_append]

/-- An encoded context is never the empty byte sequence. -/
theorem encodeContext_ne_nil (c : UpgradeAssistantContext) : encodeContext c ≠ [] := by
  simp [encodeContext]

/-- Round trip through the `TryFrom` conversions. -/
theorem ctxTryFrom_encodeContext (c : UpgradeAssistantContext)
    (h : keysNodup c.pending_ops) : ctxTryFrom (encodeContext c) = .ok c := by
  simp only [ctxTryFrom, if_neg (encodeContext_ne_nil c), decodeContext_encodeContext c h]

/-! ### Helper lemmas: base58 -/

/-- The fuelled digit expansion computes big-endian base-58 digits. -/
theorem b58DigitsAux_eq (fuel : Nat) : ∀ n : Nat, n ≤ fuel →
    b58DigitsAux fuel n = (Nat.digits 58 n).reverse := by
  induction fuel with
  | zero =>
    intro n hn
    have h0 : n = 0 := Nat.le_zero.mp hn
    subst h0
    simp [b58DigitsAux]
  | succ fuel ih =>
    intro n hn
    by_cases h0 : n = 0
    · subst h0; simp [b58DigitsAux]
    · have hdiv : n / 58 ≤ fuel := by
        have := Nat.div_lt_self (Nat.pos_of_ne_zero h0) (by norm_num : 1 < 58)
        omega
      simp only [b58DigitsAux, if_neg h0, ih _ hdiv]
      rw [Nat.digits_def' (by norm_num : (1:Nat) < 58) (Nat.pos_of_ne_zero h0)]
      simp [List.reverse_cons]

/-- Digit expansion agrees with the Mathlib digits function. -/
theorem b58Digits_eq (n : Nat) : b58Digits n = (Nat.digits 58 n).reverse :=
  b58DigitsAux_eq n n le_rfl

/-- The big-endian fold computes the base-256 positional value. -/
theorem foldl_base256 (xs : Bytes) : ∀ acc : Nat,
    xs.foldl (fun a b => a * 256 + b) acc =
      acc * 256 ^ xs.length + Nat.ofDigits 256 xs.reverse := by
  induction xs with
  | nil => intro acc; simp [Nat.ofDigits]
  | cons b t ih =>
    intro acc
    simp only [List.foldl_cons, ih, List.reverse_cons, List.length_cons]
    have happ : Nat.ofDigits 256 (t.reverse ++ [b]) =
        Nat.ofDigits 256 t.reverse + 256 ^ t.reverse.length * Nat.ofDigits 256 [b] := by
      exact_mod_cast Nat.ofDigits_append
    have hsingle : Nat.ofDigits 256 [b] = b := by simp [Nat.ofDigits]
    rw [happ, hsingle, List.length_reverse]
    ring

/-- A byte string's value is the positional value of its reversed digits. -/
theorem bytesToNat_eq_ofDigits (xs : Bytes) :
    bytesToNat xs = Nat.ofDigits 256 xs.reverse := by
  simpa using foldl_base256 xs 0

/-- Every byte string splits into its leading zeros and the remainder. -/
theorem replicate_clz_append (xs : Bytes) :
    xs = List.replicate (countLeadingZeros xs) 0 ++ xs.drop (countLeadingZeros xs) := by
  induction xs with
  | nil => rfl
  | cons b t ih =>
    by_cases hb : b = 0
    · subst hb
      simp only [countLeadingZeros, if_pos rfl, List.replicate_succ, List.drop_succ_cons,
        List.cons_append]
      exact congrArg (List.cons 0) ih
    · simp [countLeadingZeros, hb]

/-- After stripping the leading zeros, the head is nonzero. -/
theorem head_drop_clz (xs : Bytes) :
    ∀ b, (xs.drop (countLeadingZeros xs)).head? = some b → b ≠ 0 := by
  induction xs with
  | nil => intro b h; simp at h
  | cons x t ih =>
    intro b h
    by_cases hx : x = 0
    · subst hx
      simp only [countLeadingZeros, if_pos rfl, List.drop_succ_cons] at h
      exact ih b h
    · simp only [countLeadingZeros, if_neg hx, List.drop_zero, List.head?_cons,
        Option.some.injEq] at h
      intro hb
      exact hx (h.symm ▸ hb)

/-- Leading zero bytes do not change the value. -/
theorem bytesToNat_drop_clz (xs : Bytes) :
    bytesToNat (xs.drop (countLeadingZeros xs)) = bytesToNat xs := by
  induction xs with
  | nil => rfl
  | cons x t ih =>
    by_cases hx : x = 0
    · subst hx
      have hstep : (0 :: t).drop (countLeadingZeros (0 :: t)) = t.drop (countLeadingZeros t) := by
        simp [countLeadingZeros]
      rw [hstep, ih]
      simp [bytesToNat, List.foldl_cons]
    · simp [countLeadingZeros, hx]

/-- For a byte string without leading zeros, base-256 digits reconstruct it. -/
theorem digits_bytesToNat (ys : Bytes) (hlt : ∀ b ∈ ys, b < 256)
    (hhead : ∀ b, ys.head? = some b → b ≠ 0) :
    Nat.digits 256 (bytesToNat ys) = ys.reverse := by
  rw [bytesToNat_eq_ofDigits]
  apply Nat.digits_ofDigits 256 (by norm_num) ys.reverse
  · intro l hl; exact hlt l (List.mem_reverse.mp hl)
  · intro hne
    have h1 : ys.reverse.getLast? = some (ys.reverse.getLast hne) :=
      List.getLast?_eq_getLast _ hne
    rw [List.getLast?_reverse] at h1
    exact hhead _ h1

/-- Reconstruction: a byte string is its leading zeros followed by the
big-endian base-256 digits of its value. -/
theorem bytes_reconstruct (xs : Bytes) (hlt : ∀ b ∈ xs, b < 256) :
    xs = List.replicate (countLeadingZeros xs) 0 ++
      (Nat.digits 256 (bytesToNat xs)).reverse := by
  have hlt2 : ∀ b ∈ xs.drop (countLeadingZeros xs), b < 256 :=
    fun b hb => hlt b (List.mem_of_mem_drop hb)
  have h2 := digits_bytesToNat _ hlt2 (head_drop_clz xs)
  conv_rhs => rw [← bytesToNat_drop_clz xs, h2, List.reverse_reverse]
  exact replicate_clz_append xs

/-- The base58 alphabet is injective on digits below 58. -/
theorem alphChar_injOn : ∀ d1, d1 < 58 → ∀ d2, d2 < 58 →
    alphChar d1 = alphChar d2 → d1 = d2 := by decide

/-- Only digit 0 maps to the character for a leading zero. -/
theorem alphChar_ne_one : ∀ d, d < 58 → d ≠ 0 → alphChar d ≠ '1' := by decide

/-- Mapping to alphabet characters is injective on digit lists. -/
theorem map_alphChar_inj : ∀ l1 l2 : List Nat, (∀ d ∈ l1, d < 58) → (∀ d ∈ l2, d < 58) →
    l1.map alphChar = l2.map alphChar → l1 = l2 := by
  intro l1
  induction l1 with
  | nil =>
    intro l2 _ _ h
    cases l2 with
    | nil => rfl
    | cons d2 t2 => simp at h
  | cons d t ih =>
    intro l2 h1 h2 h
    cases l2 with
    | nil => simp at h
    | cons d2 t2 =>
      simp only [List.map_cons, List.cons.injEq] at h
      have hd := alphChar_injOn d (h1 d (by simp)) d2 (h2 d2 (by simp)) h.1
      rw [hd, ih t2 (fun x hx => h1 x (by simp [hx])) (fun x hx => h2 x (by simp [hx])) h.2]

/-- All base-58 digits are below 58. -/
theorem b58Digits_lt (n : Nat) : ∀ d ∈ b58Digits n, d < 58 := by
  intro d hd
  rw [b58Digits_eq] at hd
  exact Nat.digits_lt_base (by norm_num) (List.mem_reverse.mp hd)

/-- The leading base-58 digit is nonzero. -/
theorem b58Digits_head_ne_zero (n : Nat) :
    ∀ d, (b58Digits n).head? = some d → d ≠ 0 := by
  intro d hd
  rw [b58Digits_eq, List.head?_reverse] at hd
  by_cases h0 : n = 0
  · subst h0; simp at hd
  · have hne : Nat.digits 58 n ≠ [] := Nat.digits_ne_nil_iff_ne_zero.mpr h0
    rw [List.getLast?_eq_getLast _ hne, Option.some.injEq] at hd
    exact hd ▸ Nat.getLast_digit_ne_zero 58 h0

/-- The digit part of an encoding never starts with the zero character. -/
theorem b58_tail_head_ne_one (n : Nat) :
    ∀ x, ((b58Digits n).map alphChar).head? = some x → x ≠ '1' := by
  intro x hx
  rw [List.head?_map] at hx
  cases hh : (b58Digits n).head? with
  | none => rw [hh] at hx; simp at hx
  | some d =>
    rw [hh] at hx
    simp only [Option.map_some'] at hx
    have hmem : d ∈ b58Digits n := by
      cases hl : b58Digits n with
      | nil => rw [hl] at hh; simp at hh
      | cons a l =>
        rw [hl] at hh
        simp only [List.head?_cons, Option.some.injEq] at hh
        rw [← hh]
        exact List.mem_cons_self a l
    have hne1 := alphChar_ne_one d (b58Digits_lt n d hmem) (b58Digits_head_ne_zero n d hh)
    simp only [Option.some.injEq] at hx
    exact hx ▸ hne1

/-- Splitting a leading-character run: equal concatenations with tails not
starting in that character have equal runs and equal tails. -/
theorem replicate_append_split (c : Char) : ∀ (z1 z2 : Nat) (t1 t2 : List Char),
    List.replicate z1 c ++ t1 = List.replicate z2 c ++ t2 →
    (∀ x, t1.head? = some x → x ≠ c) → (∀ x, t2.head? = some x → x ≠ c) →
    z1 = z2 ∧ t1 = t2 := by
  intro z1
  induction z1 with
  | zero =>
    intro z2 t1 t2 h h1 h2
    cases z2 with
    | zero => simpa using h
    | succ z2 =>
      exfalso
      simp only [List.replicate_zero, List.nil_append, List.replicate_succ,
        List.cons_append] at h
      exact h1 c (by rw [h]; rfl) rfl
  | succ z1 ih =>
    intro z2 t1 t2 h h1 h2
    cases z2 with
    | zero =>
      exfalso
      simp only [List.replicate_succ, List.cons_append, List.replicate_zero,
        List.nil_append] at h
      exact h2 c (by rw [← h]; rfl) rfl
    | succ z2 =>
      simp only [List.replicate_succ, List.cons_append, List.cons.injEq, true_and] at h
      have := ih z2 t1 t2 h h1 h2
      exact ⟨by omega, this.2⟩

/-- Base58 encoding is injective on byte strings. -/
theorem b58encode_inj (xs ys : Bytes) (hx : ∀ b ∈ xs, b < 256) (hy : ∀ b ∈ ys, b < 256)
    (h : b58encode xs = b58encode ys) : xs = ys := by
  have hdata : List.replicate (countLeadingZeros xs) '1'
        ++ (b58Digits (bytesToNat xs)).map alphChar
      = List.replicate (countLeadingZeros ys) '1'
        ++ (b58Digits (bytesToNat ys)).map alphChar := congrArg String.data h
  have hsplit := replicate_append_split '1' _ _ _ _ hdata
    (b58_tail_head_ne_one _) (b58_tail_head_ne_one _)
  have hdigits := map_alphChar_inj _ _ (b58Digits_lt _) (b58Digits_lt _) hsplit.2
  have hn : bytesToNat xs = bytesToNat ys := by
    have e1 : Nat.digits 58 (bytesToNat xs) = Nat.digits 58 (bytesToNat ys) := by
      have e0 := congrArg List.reverse hdigits
      rwa [b58Digits_eq, b58Digits_eq, List.reverse_reverse, List.reverse_reverse] at e0
    have e2 := congrArg (Nat.ofDigits 58) e1
    rwa [Nat.ofDigits_digits, Nat.ofDigits_digits] at e2
  rw [bytes_reconstruct xs hx, bytes_reconstruct ys hy, hsplit.1, hn]

/-! ### Helper lemmas: storage key derivation -/

/-- Same namespace, equal keys: the origins have equal base58 encodings. -/
theorem create_storage_key_inj_origin (n : Option String) (o1 o2 : Bytes)
    (h1 : ∀ b ∈ o1, b < 256) (h2 : ∀ b ∈ o2, b < 256)
    (h : create_storage_key o1 n = create_storage_key o2 n) : o1 = o2 := by
  apply b58encode_inj o1 o2 h1 h2
  have hd := congrArg String.data h
  simp only [create_storage_key, String.data_append, List.append_assoc] at hd
  have hd2 := List.append_cancel_left hd
  have hd3 : (b58encode o1).data = (b58encode o2).data := List.append_cancel_right hd2
  exact string_data_ext hd3

/-- Same origin, equal keys: the effective namespace strings agree. -/
theorem create_storage_key_inj_ns (o : Bytes) (n1 n2 : Option String)
    (h : create_storage_key o n1 = create_storage_key o n2) :
    n1.getD "_default_" = n2.getD "_default_" := by
  have hd := congrArg String.data h
  simp only [create_storage_key, String.data_append, List.append_assoc] at hd
  have hd2 := List.append_cancel_left (List.append_cancel_left hd)
  exact string_data_ext (List.append_cancel_left hd2)

/-! ### Helper lemmas: behavior of the resumption handler -/

/-- A storage response whose key has no pending entry fails as orphaned. -/
theorem process_orphaned (origin : Bytes) (r : GetSecretResponse)
    (c : UpgradeAssistantContext) (hctx : ctxTryFrom r.context = .ok c)
    (hlookup : mapLookup r.key c.pending_ops = none) :
    UpgradeAssistant.process (some origin) (.GetSecretResponse r)
      = .error (.Other ("No pending operation for key: " ++ r.key)) := by
  simp [UpgradeAssistant.process, handle_get_secret_response, hctx, hlookup]

/-- Resuming a parked `GetPreviousKey` with an absent value replies with the
first-run `PreviousKey` response and the entry erased from the context. -/
theorem process_resume_none (origin o2 app : Bytes) (ns : Option String) (key : String)
    (ctxBytes : List Nat) (c : UpgradeAssistantContext)
    (hctx : ctxTryFrom ctxBytes = .ok c)
    (hlookup : mapLookup key c.pending_ops = some (.GetPreviousKey o2 ns app)) :
    UpgradeAssistant.process (some origin)
      (.GetSecretResponse { key := key, value := none, context := ctxBytes })
      = .ok [.ApplicationMessage
          { app := app,
            payload := encodeResponse (.PreviousKey ns none none),
            context := encodeContext { pending_ops := mapErase key c.pending_ops },
            processed := false }] := by
  simp [UpgradeAssistant.process, handle_get_secret_response, hctx, hlookup,
    create_app_response]

/-- Resuming a parked `GetPreviousKey` with a stored record replies with the
decoded identifier and revision hash and the entry erased from the context. -/
theorem process_resume_some (origin o2 app : Bytes) (ns : Option String) (key : String)
    (ctxBytes : List Nat) (c : UpgradeAssistantContext) (ki : StoredKeyInfo)
    (hctx : ctxTryFrom ctxBytes = .ok c)
    (hlookup : mapLookup key c.pending_ops = some (.GetPreviousKey o2 ns app)) :
    UpgradeAssistant.process (some origin)
      (.GetSecretResponse
        { key := key, value := some (encodeStoredKeyInfo ki), context := ctxBytes })
      = .ok [.ApplicationMessage
          { app := app,
            payload := encodeResponse
              (.PreviousKey ns (some ki.delegate_key) (some ki.code_hash)),
            context := encodeContext { pending_ops := mapErase key c.pending_ops },
            processed := false }] := by
  simp [UpgradeAssistant.process, handle_get_secret_response, hctx, hlookup,
    decodeStoredKeyInfo_encodeStoredKeyInfo, create_app_response]

/-- A well-formed `GetPreviousKey` request emits exactly one storage lookup
carrying the context extended with the parked operation. -/
theorem process_get_previous_key (origin app : Bytes) (ctxBytes : List Nat)
    (ns : Option String) (c : UpgradeAssistantContext)
    (hctx : ctxTryFrom ctxBytes = .ok c) :
    UpgradeAssistant.process (some origin)
      (.ApplicationMessage
        { app := app,
          payload := encodeRequest (.GetPreviousKey ns),
          context := ctxBytes,
          processed := false })
      = .ok [.GetSecretRequest
          { key := create_storage_key origin ns,
            context := encodeContext
              { pending_ops := mapInsert (create_storage_key origin ns)
                  (.GetPreviousKey origin ns app) c.pending_ops },
            processed := false }] := by
  simp [UpgradeAssistant.process, handle_application_message, hctx,
    decodeRequest_encodeRequest, handle_get_previous_key]

/-- A well-formed `SetCurrentKey` request emits exactly the reply and the
storage write, in this order. -/
theorem process_set_current_key (origin app : Bytes) (ctxBytes : List Nat)
    (ns : Option String) (dk ch : Bytes) (c : UpgradeAssistantContext)
    (hctx : ctxTryFrom ctxBytes = .ok c) :
    UpgradeAssistant.process (some origin)
      (.ApplicationMessage
        { app := app,
          payload := encodeRequest (.SetCurrentKey ns dk ch),
          context := ctxBytes,
          processed := false })
      = .ok [.ApplicationMessage
          { app := app,
            payload := encodeResponse (.KeyUpdated ns),
            context := encodeContext c,
            processed := false },
        .SetSecretRequest
          { key := create_storage_key origin ns,
            value := some (encodeStoredKeyInfo { delegate_key := dk, code_hash := ch }) }] := by
  simp [UpgradeAssistant.process, handle_application_message, hctx,
    decodeRequest_encodeRequest, handle_set_current_key, create_app_response]

/-! ### Claim theorems -/

/-- Claim C1: a storage response matching the pending `GetPreviousKey` entry
with an absent value (namespace never set) yields a `PreviousKey` reply with
identifier `None` and revision hash `None`; and after `SetCurrentKey{ns,K,H}`
has stored its value, a subsequent `GetPreviousKey{ns}` from an empty context
whose lookup response carries back the stored value yields a `PreviousKey`
reply with identifier `Some K` and revision hash `Some H`. -/
theorem claim_C1_get_previous_roundtrip :
    (∀ (origin app o2 : Bytes) (ns : Option String) (ctxBytes : List Nat)
        (c : UpgradeAssistantContext),
      ctxTryFrom ctxBytes = .ok c →
      mapLookup (create_storage_key origin ns) c.pending_ops
        = some (.GetPreviousKey o2 ns app) →
      UpgradeAssistant.process (some origin)
        (.GetSecretResponse
          { key := create_storage_key origin ns, value := none, context := ctxBytes })
        = .ok [.ApplicationMessage
            { app := app,
              payload := encodeResponse (.PreviousKey ns none none),
              context := encodeContext
                { pending_ops := mapErase (create_storage_key origin ns) c.pending_ops },
              processed := false }]) ∧
    (∀ (origin app1 app2 dk ch : Bytes) (ns : Option String),
      UpgradeAssistant.process (some origin)
        (.ApplicationMessage
          { app := app1,
            payload := encodeRequest (.SetCurrentKey ns dk ch),
            context := [],
            processed := false })
        = .ok [.ApplicationMessage
            { app := app1,
              payload := encodeResponse (.KeyUpdated ns),
              context := encodeContext {},
              processed := false },
          .SetSecretRequest
            { key := create_storage_key origin ns,
              value := some (encodeStoredKeyInfo { delegate_key := dk, code_hash := ch }) }] ∧
      UpgradeAssistant.process (some origin)
        (.ApplicationMessage
          { app := app2,
            payload := encodeRequest (.GetPreviousKey ns),
            context := [],
            processed := false })
        = .ok [.GetSecretRequest
            { key := create_storage_key origin ns,
              context := encodeContext
                { pending_ops := [(create_storage_key origin ns,
                    .GetPreviousKey origin ns app2)] },
              processed := false }] ∧
      UpgradeAssistant.process (some origin)
        (.GetSecretResponse
          { key := create_storage_key origin ns,
            value := some (encodeStoredKeyInfo { delegate_key := dk, code_hash := ch }),
            context := encodeContext
              { pending_ops := [(create_storage_key origin ns,
                  .GetPreviousKey origin ns app2)] } })
        = .ok [.ApplicationMessage
            { app := app2,
              payload := encodeResponse (.PreviousKey ns (some dk) (some ch)),
              context := encodeContext {},
              processed := false }]) := by
  constructor
  · intro origin app o2 ns ctxBytes c hctx hlookup
    exact process_resume_none origin o2 app ns (create_storage_key origin ns) ctxBytes c
      hctx hlookup
  · intro origin app1 app2 dk ch ns
    refine ⟨process_set_current_key origin app1 [] ns dk ch {} rfl, ?_, ?_⟩
    · exact process_get_previous_key origin app2 [] ns {} rfl
    · have hctx : ctxTryFrom (encodeContext
          { pending_ops := [(create_storage_key origin ns,
              .GetPreviousKey origin ns app2)] })
          = .ok { pending_ops := [(create_storage_key origin ns,
              .GetPreviousKey origin ns app2)] } :=
        ctxTryFrom_encodeContext _ (by simp [keysNodup])
      have hlookup : mapLookup (create_storage_key origin ns)
          [(create_storage_key origin ns, .GetPreviousKey origin ns app2)]
          = some (.GetPreviousKey origin ns app2) := by simp [mapLookup]
      have h3 := process_resume_some origin origin app2 ns (create_storage_key origin ns)
        _ _ { delegate_key := dk, code_hash := ch } hctx hlookup
      simpa [mapErase] using h3

/-- Witness for C1: concrete first-run resumption (value absent) produces the
`PreviousKey` reply with both fields `None`. -/
theorem claim_C1_witness :
    UpgradeAssistant.process (some [1])
      (.GetSecretResponse
        { key := create_storage_key [1] none,
          value := none,
          context := encodeContext
            { pending_ops := [(create_storage_key [1] none,
                .GetPreviousKey [1] none [2])] } })
      = .ok [.ApplicationMessage
          { app := [2],
            payload := encodeResponse (.PreviousKey none none none),
            context := encodeContext
              { pending_ops := mapErase (create_storage_key [1] none)
                  [(create_storage_key [1] none, .GetPreviousKey [1] none [2])] },
            processed := false }] :=
  claim_C1_get_previous_roundtrip.1 [1] [2] [1] none _ _
    (ctxTryFrom_encodeContext _ (by simp [keysNodup])) (by simp [mapLookup])

/-- Claim C2: a `SetCurrentKey` request with attested origin and well-formed
payload either fails with zero outbound effects, or emits exactly two effects
in order — the `KeyUpdated` reply whose attached context decodes to the same
pending-operation mapping as the inbound context, then the storage write of
the serialized `StoredKeyInfo` under the derived key — with no read before
the write. -/
theorem claim_C2_set_current_key_effects (origin app : Bytes) (ctxBytes : List Nat)
    (ns : Option String) (dk ch : Bytes) :
    (∃ e, UpgradeAssistant.process (some origin)
        (.ApplicationMessage
          { app := app,
            payload := encodeRequest (.SetCurrentKey ns dk ch),
            context := ctxBytes,
            processed := false })
        = .error e) ∨
    (∃ c, ctxTryFrom ctxBytes = .ok c ∧
      UpgradeAssistant.process (some origin)
        (.ApplicationMessage
          { app := app,
            payload := encodeRequest (.SetCurrentKey ns dk ch),
            context := ctxBytes,
            processed := false })
        = .ok [.ApplicationMessage
            { app := app,
              payload := encodeResponse (.KeyUpdated ns),
              context := encodeContext c,
              processed := false },
          .SetSecretRequest
            { key := create_storage_key origin ns,
              value := some (encodeStoredKeyInfo { delegate_key := dk, code_hash := ch }) }] ∧
      ctxTryFrom (encodeContext c) = .ok c) := by
  cases hctx : ctxTryFrom ctxBytes with
  | error e =>
    left
    exact ⟨e, by simp [UpgradeAssistant.process, handle_application_message, hctx]⟩
  | ok c =>
    right
    exact ⟨c, rfl, process_set_current_key origin app ctxBytes ns dk ch c hctx,
      ctxTryFrom_encodeContext c (ctxTryFrom_keysNodup _ _ hctx)⟩

/-- Claim C3: a `GetPreviousKey` request with attested origin, well-formed
payload and context emits exactly one outbound effect — a storage lookup at
the derived key whose attached encoded context registers the parked
`GetPreviousKey{origin, namespace, replyTarget}` under that key — and no
application reply. -/
theorem claim_C3_get_previous_key_effects (origin app : Bytes) (ctxBytes : List Nat)
    (ns : Option String) (c : UpgradeAssistantContext)
    (hctx : ctxTryFrom ctxBytes = .ok c) :
    UpgradeAssistant.process (some origin)
      (.ApplicationMessage
        { app := app,
          payload := encodeRequest (.GetPreviousKey ns),
          context := ctxBytes,
          processed := false })
      = .ok [.GetSecretRequest
          { key := create_storage_key origin ns,
            context := encodeContext
              { pending_ops := mapInsert (create_storage_key origin ns)
                  (.GetPreviousKey origin ns app) c.pending_ops },
            processed := false }] ∧
    ctxTryFrom (encodeContext
        { pending_ops := mapInsert (create_storage_key origin ns)
            (.GetPreviousKey origin ns app) c.pending_ops })
      = .ok
          { pending_ops := mapInsert (create_storage_key origin ns)
              (.GetPreviousKey origin ns app) c.pending_ops } ∧
    mapLookup (create_storage_key origin ns)
      (mapInsert (create_storage_key origin ns) (.GetPreviousKey origin ns app) c.pending_ops)
      = some (.GetPreviousKey origin ns app) :=
  ⟨process_get_previous_key origin app ctxBytes ns c hctx,
   ctxTryFrom_encodeContext _ (keysNodup_mapInsert _ _ _ (ctxTryFrom_keysNodup _ _ hctx)),
   mapLookup_mapInsert_self _ _ _⟩

/-- Witness for C3: a concrete fresh `GetPreviousKey` emits exactly the one
storage lookup with the parked operation. -/
theorem claim_C3_witness :
    UpgradeAssistant.process (some [1])
      (.ApplicationMessage
        { app := [2],
          payload := encodeRequest (.GetPreviousKey (some "a")),
          context := [],
          processed := false })
      = .ok [.GetSecretRequest
          { key := create_storage_key [1] (some "a"),
            context := encodeContext
              { pending_ops := mapInsert (create_storage_key [1] (some "a"))
                  (.GetPreviousKey [1] (some "a") [2]) [] },
            processed := false }] :=
  (claim_C3_get_previous_key_effects [1] [2] [] (some "a") {} rfl).1

/-- Claim C4: a storage response whose key has no pending entry fails with
the orphaned-response error and zero effects; a matching `GetPreviousKey`
entry is removed, the reply context no longer contains it, and replaying the
same response against the returned context fails as orphaned — no entry is
resumed twice. -/
theorem claim_C4_orphaned_and_consume_once :
    (∀ (origin : Bytes) (key : String) (value : Option (List Nat)) (ctxBytes : List Nat)
        (c : UpgradeAssistantContext),
      ctxTryFrom ctxBytes = .ok c →
      mapLookup key c.pending_ops = none →
      UpgradeAssistant.process (some origin)
        (.GetSecretResponse { key := key, value := value, context := ctxBytes })
        = .error (.Other ("No pending operation for key: " ++ key))) ∧
    (∀ (origin o2 app : Bytes) (ns : Option String) (key : String) (ctxBytes : List Nat)
        (c : UpgradeAssistantContext) (value : Option (List Nat)),
      ctxTryFrom ctxBytes = .ok c →
      mapLookup key c.pending_ops = some (.GetPreviousKey o2 ns app) →
      (value = none ∨ ∃ ki : StoredKeyInfo, value = some (encodeStoredKeyInfo ki)) →
      ∃ payload : List Nat,
        UpgradeAssistant.process (some origin)
          (.GetSecretResponse { key := key, value := value, context := ctxBytes })
          = .ok [.ApplicationMessage
              { app := app,
                payload := payload,
                context := encodeContext { pending_ops := mapErase key c.pending_ops },
                processed := false }] ∧
        mapLookup key (mapErase key c.pending_ops) = none ∧
        UpgradeAssistant.process (some origin)
          (.GetSecretResponse
            { key := key,
              value := value,
              context := encodeContext { pending_ops := mapErase key c.pending_ops } })
          = .error (.Other ("No pending operation for key: " ++ key))) := by
  constructor
  · intro origin key value ctxBytes c hctx hlookup
    exact process_orphaned origin _ c hctx hlookup
  · intro origin o2 app ns key ctxBytes c value hctx hlookup hval
    have hnodup := ctxTryFrom_keysNodup _ _ hctx
    have herased : ctxTryFrom (encodeContext { pending_ops := mapErase key c.pending_ops })
        = .ok { pending_ops := mapErase key c.pending_ops } :=
      ctxTryFrom_encodeContext _ (keysNodup_mapErase key _ hnodup)
    have hlookup2 : mapLookup key (mapErase key c.pending_ops) = none :=
      mapLookup_mapErase_self key _ hnodup
    rcases hval with rfl | ⟨ki, rfl⟩
    · exact ⟨encodeResponse (.PreviousKey ns none none),
        process_resume_none origin o2 app ns key ctxBytes c hctx hlookup,
        hlookup2,
        process_orphaned origin _ _ herased hlookup2⟩
    · exact ⟨encodeResponse (.PreviousKey ns (some ki.delegate_key) (some ki.code_hash)),
        process_resume_some origin o2 app ns key ctxBytes c ki hctx hlookup,
        hlookup2,
        process_orphaned origin _ _ herased hlookup2⟩

/-- Witness for C4: a concrete storage response against an empty context
fails with the orphaned-response error. -/
theorem claim_C4_witness :
    UpgradeAssistant.process (some [1])
      (.GetSecretResponse { key := "k", value := none, context := [] })
      = .error (.Other ("No pending operation for key: " ++ "k")) :=
  claim_C4_orphaned_and_consume_once.1 [1] "k" none [] {} rfl rfl

/-- Claim C5: decoding the encoding of any in-memory context (zero or more
pending operations, distinct keys as for a `HashMap`) yields the original
context, and decoding the empty byte sequence yields the empty context. -/
theorem claim_C5_context_roundtrip (c : UpgradeAssistantContext)
    (h : keysNodup c.pending_ops) :
    ctxTryFrom (encodeContext c) = .ok c ∧
    ctxTryFrom ([] : List Nat) = .ok ({} : UpgradeAssistantContext) :=
  ⟨ctxTryFrom_encodeContext c h, rfl⟩

/-- Witness for C5: a concrete one-entry context round-trips. -/
theorem claim_C5_witness :
    ctxTryFrom (encodeContext
        { pending_ops := [("k", .GetPreviousKey [1] none [2])] })
      = .ok { pending_ops := [("k", .GetPreviousKey [1] none [2])] } :=
  (claim_C5_context_roundtrip { pending_ops := [("k", .GetPreviousKey [1] none [2])] }
    (by simp [keysNodup])).1

/-- Claim C6: storage-key derivation is a pure deterministic function —
identical (origin, namespace) inputs give the identical key — and it is
injective across distinct origins for a fixed namespace (proved outright:
base58 encoding of byte strings is injective, so no collisions need to be
excluded). -/
theorem claim_C6_derive_deterministic_injective (ns : Option String) (o1 o2 : Bytes)
    (h1 : ∀ b ∈ o1, b < 256) (h2 : ∀ b ∈ o2, b < 256) :
    create_storage_key o1 ns = create_storage_key o1 ns ∧
    (create_storage_key o1 ns = create_storage_key o2 ns → o1 = o2) :=
  ⟨rfl, create_storage_key_inj_origin ns o1 o2 h1 h2⟩

/-- Witness for C6: applying injectivity at a concrete origin. -/
theorem claim_C6_witness : ([1] : Bytes) = [1] :=
  (claim_C6_derive_deterministic_injective none [1] [1] (by decide) (by decide)).2 rfl

/-- Counterexample to C7 as stated: `None` and `Some "_default_"` are two
different namespace values of the same origin that derive the identical
storage key. -/
theorem claim_C7_counterexample :
    create_storage_key [1] none = create_storage_key [1] (some "_default_") ∧
    (none : Option String) ≠ some "_default_" :=
  ⟨rfl, by decide⟩

/-- Claim C7 (amended): for one origin, namespaces whose effective strings
differ (with `None` resolving to `"_default_"`) derive different storage
keys; and for one namespace, two different origins always derive different
storage keys. -/
theorem claim_C7_distinct_keys (o o1 o2 : Bytes) (ns n1 n2 : Option String)
    (ho1 : ∀ b ∈ o1, b < 256) (ho2 : ∀ b ∈ o2, b < 256) :
    (n1.getD "_default_" ≠ n2.getD "_default_" →
      create_storage_key o n1 ≠ create_storage_key o n2) ∧
    (o1 ≠ o2 → create_storage_key o1 ns ≠ create_storage_key o2 ns) :=
  ⟨fun hne heq => hne (create_storage_key_inj_ns o n1 n2 heq),
   fun hne heq => hne (create_storage_key_inj_origin ns o1 o2 ho1 ho2 heq)⟩

/-- Witness for C7 (amended): concrete distinct namespaces and origins give
distinct keys. -/
theorem claim_C7_witness :
    create_storage_key [1] (some "a") ≠ create_storage_key [1] (some "b") ∧
    create_storage_key [1] (some "a") ≠ create_storage_key [2] (some "a") :=
  ⟨(claim_C7_distinct_keys [1] [1] [2] (some "a") (some "a") (some "b")
      (by decide) (by decide)).1 (by decide),
   (claim_C7_distinct_keys [1] [1] [2] (some "a") (some "a") (some "b")
      (by decide) (by decide)).2 (by decide)⟩

/-- Claim C8: any inbound message delivered without an attested origin fails
with the missing-origin error and produces zero outbound effects, regardless
of payload, context or processed flag. -/
theorem claim_C8_missing_origin (message : InboundDelegateMsg) :
    UpgradeAssistant.process none message = .error (.Other "missing attested origin") :=
  rfl

/-- Claim C9: an application message whose processed flag is already true
fails with the invalid-state error and produces zero outbound effects. -/
theorem claim_C9_already_processed (origin app : Bytes) (payload ctx : List Nat) :
    UpgradeAssistant.process (some origin)
      (.ApplicationMessage
        { app := app, payload := payload, context := ctx, processed := true })
      = .error (.Other "cannot process an already processed message") :=
  rfl

/-- Claim C10: the storage key for namespace `None` equals the storage key
for namespace `Some "_default_"`, so both callers address the same stored
record. -/
theorem claim_C10_default_namespace (origin : Bytes) :
    create_storage_key origin none = create_storage_key origin (some "_default_") :=
  rfl
